import Mathlib

/-!
# Verification of the VQ-VAE network (`vq_vae/network.py`)

A shallow embedding of the vector-quantization bottleneck and the
convolutional encoder/decoder stacks of the VQ-VAE repository.
Tensors are modelled as a flat list of rational values together with a
shape; the numeric semantics of the tensor backend (sums, products,
means, matrix products) is spelled out over lists of rationals.
-/

/-- A tensor: a shape and flat (row-major) data.  A tensor is well formed
when `data.length = shape.prod`; theorems carry that as a hypothesis. -/
structure Tensor where
  shape : List Nat
  data : List Rat
deriving DecidableEq, Repr

/-- Dot product of two vectors (`torch.matmul` on a row and a column). -/
def dot (a b : List Rat) : Rat :=
  (List.zipWith (· * ·) a b).sum

/-- Squared Euclidean norm: `torch.sum(v ** 2)`. -/
def sqNorm (v : List Rat) : Rat :=
  (v.map (fun x => x ^ 2)).sum

/-- Elementwise `(a - b) ** 2`. -/
def sqDiff (a b : List Rat) : List Rat :=
  (List.zipWith (· - ·) a b).map (fun x => x ^ 2)

/-- Squared Euclidean distance `|a - b|²` (the quantity the distance
expansion of line 37-39 is meant to compute). -/
def sqDist (a b : List Rat) : Rat :=
  (sqDiff a b).sum

/-- Semantics of `torch.mean`: sum of all elements divided by their count. -/
def mean (l : List Rat) : Rat :=
  l.sum / (l.length : Rat)

/-- Semantics of `torch.mean((a - b) ** 2)`: mean squared error between two
equally-shaped tensors, elementwise over their flat data. -/
def mse (a b : List Rat) : Rat :=
  mean (sqDiff a b)

/-- Semantics of `inputs.view(-1, d)`: split flat data into consecutive rows of `d`
elements.  Fuel-driven structural recursion; the fuel `xs.length`
suffices whenever `0 < d`. -/
def chunks (d : Nat) (xs : List Rat) : List (List Rat) :=
  go xs.length xs
where
  go : Nat → List Rat → List (List Rat)
    | 0, _ => []
    | _ + 1, [] => []
    | fuel + 1, xs => xs.take d :: go fuel (xs.drop d)

/-- Line 42-43: `torch.zeros(_, n)` followed by `scatter_(1, i, 1)` —
a row of `n` entries which is `1` at position `i` and `0` elsewhere. -/
def oneHot : Nat → Nat → List Rat
  | 0, _ => []
  | n + 1, 0 => 1 :: List.replicate n 0
  | n + 1, i + 1 => 0 :: oneHot n i

/-- Row-vector–matrix product (`torch.matmul(one_hot_e_index, W)`):
entry `k` of the result is `Σ_j v_j * W_{j,k}`, for `k < d`. -/
def vecMat (d : Nat) (v : List Rat) (W : List (List Rat)) : List Rat :=
  (List.range d).map (fun k =>
    (List.zipWith (fun c row => c * row.getD k 0) v W).sum)

/-- Index of the first minimal element of a list (the semantics of
`torch.argmin(·, dim=1)`: ties go to the lowest index). -/
def argmin : List Rat → Nat
  | [] => 0
  | [_] => 0
  | x :: y :: rest =>
    let j := argmin (y :: rest)
    if (y :: rest).getD j 0 < x then j + 1 else 0

/-- Lines 37-39: the row of squared distances from one flattened input
vector `x` to every codebook row, computed exactly as in the source via
the expansion `Σ x² + Σ w² - 2 x·w`. -/
def distanceRow (x : List Rat) (W : List (List Rat)) : List Rat :=
  W.map (fun w => sqNorm x + sqNorm w - 2 * dot x w)

/-- The `VectorQuantize` module: configuration plus the learned
codebook `embeddings.weight` (an `num_embeddings × embeddings_dim`
matrix). -/
structure VectorQuantize where
  num_embeddings : Nat
  embeddings_dim : Nat
  commitment_cost : Rat
  weight : List (List Rat)
deriving DecidableEq, Repr

/-- Well-formedness: the codebook has `num_embeddings` rows of
`embeddings_dim` entries each (the `nn.Embedding(n, d)` invariant). -/
def VectorQuantize.WF (vq : VectorQuantize) : Prop :=
  vq.weight.length = vq.num_embeddings ∧
    ∀ r ∈ vq.weight, r.length = vq.embeddings_dim

instance (vq : VectorQuantize) : Decidable vq.WF := by
  unfold VectorQuantize.WF; infer_instance

/-- Lines 37-41: the nearest-codebook index chosen for each flattened
input row. -/
def VectorQuantize.selectedIndices (vq : VectorQuantize) (xs : List Rat) :
    List Nat :=
  (chunks vq.embeddings_dim xs).map (fun x => argmin (distanceRow x vq.weight))

/-- Line 45 before the final `view`: the quantized values
`torch.matmul(one_hot_e_index, self.embeddings.weight)`, flattened. -/
def VectorQuantize.quantizedFlat (vq : VectorQuantize) (xs : List Rat) :
    List Rat :=
  ((chunks vq.embeddings_dim xs).map (fun x =>
    vecMat vq.embeddings_dim
      (oneHot vq.num_embeddings (argmin (distanceRow x vq.weight)))
      vq.weight)).flatten

/-- Lines 34-58, `VectorQuantize.forward`.  `inputs.view(-1, d)` requires
`d` to divide the element count (and `d > 0`); `e.view(inputs.shape)`
requires the quantized data to fill the input's shape.  Returns the
combined loss and the straight-through latent. -/
def VectorQuantize.forward (vq : VectorQuantize) (inputs : Tensor) :
    Option (Rat × Tensor) :=
  if 0 < vq.embeddings_dim ∧ vq.embeddings_dim ∣ inputs.data.length then
    let e_flat := vq.quantizedFlat inputs.data
    if e_flat.length = inputs.shape.prod then
      let e_loss := mse e_flat inputs.data
      let q_loss := mse inputs.data e_flat
      let loss := vq.commitment_cost * e_loss + q_loss
      let latent := List.zipWith (fun z ei => z + (ei - z)) inputs.data e_flat
      some (loss, ⟨inputs.shape, latent⟩)
    else none
  else none

/-- The result of `VectorQuantize.forward` together with the module state after the
call.  The only in-place operation in the body, `scatter_` (line 43),
writes into the `torch.zeros` tensor freshly allocated at line 42;
no statement assigns to `self.embeddings.weight` or any other
parameter, so the post-state is the pre-state. -/
def VectorQuantize.forwardState (vq : VectorQuantize) (inputs : Tensor) :
    Option ((Rat × Tensor) × VectorQuantize) :=
  (vq.forward inputs).map (fun r => (r, vq))

/-- A layer of a convolutional stack, with the parameters that determine
its shape behaviour.  `residual` is the `Residual` block of lines 6-21
(two shape-preserving convolutions added to the input). -/
inductive Layer where
  | conv2d (inC outC k s p : Nat)
  | convT2d (inC outC k s p : Nat)
  | relu
  | residual (inC units : Nat)
deriving DecidableEq, Repr

/-- Spatial shape of a (batchless) image tensor: channels, height, width. -/
structure Shape3 where
  c : Nat
  h : Nat
  w : Nat
deriving DecidableEq, Repr

/-- Output size of `nn.Conv2d(kernel_size=k, stride=s, padding=p)` along
one spatial dimension: `⌊(h + 2p - k) / s⌋ + 1`. -/
def convOut (k s p h : Nat) : Nat :=
  (h + 2 * p - k) / s + 1

/-- Output size of `nn.ConvTranspose2d(kernel_size=k, stride=s,
padding=p)` along one spatial dimension: `(h - 1)·s + k - 2p`. -/
def convTOut (k s p h : Nat) : Nat :=
  (h - 1) * s + k - 2 * p

/-- Shape semantics of one layer: `none` when the input channel count
does not match the layer's expected channels (the backend's runtime
shape error). -/
def Layer.apply : Layer → Shape3 → Option Shape3
  | .conv2d inC outC k s p, ⟨c, h, w⟩ =>
    if c = inC then some ⟨outC, convOut k s p h, convOut k s p w⟩ else none
  | .convT2d inC outC k s p, ⟨c, h, w⟩ =>
    if c = inC then some ⟨outC, convTOut k s p h, convTOut k s p w⟩ else none
  | .relu, s => some s
  | .residual inC _, ⟨c, h, w⟩ =>
    if c = inC then some ⟨c, h, w⟩ else none

/-- Shape semantics of `nn.Sequential`: apply each layer in order. -/
def runLayers (ls : List Layer) (s : Shape3) : Option Shape3 :=
  ls.foldl (fun acc l => acc.bind l.apply) (some s)

/-- Lines 62-102, `Encoder.__init__`, as the layer stack it builds.
`assert number_pre_conv == 2 or number_pre_conv == 4` fails for any
other value.  Note the source quirks, reproduced faithfully:
* in the `number_pre_conv == 2` branch the first convolution reads
  `hidden_units // 2` input channels, ignoring the `in_channels`
  argument (lines 86-90);
* the loop of lines 98-99 appends a *generator object* (not a module)
  `num_layers` times, so `nn.Sequential(*layer_modules)` raises
  `TypeError` at construction whenever `num_layers > 0`. -/
def Encoder.make (in_channels hidden_units num_layers
    residual_hidden_units number_pre_conv : Nat) :
    Except String (List Layer) :=
  if number_pre_conv = 2 ∨ number_pre_conv = 4 then
    let base : List Layer :=
      if number_pre_conv = 4 then
        [.conv2d in_channels (hidden_units / 2) 4 2 1,
         .relu,
         .conv2d (hidden_units / 2) hidden_units 4 2 1,
         .relu,
         .conv2d hidden_units hidden_units 3 1 1]
      else
        [.conv2d (hidden_units / 2) hidden_units 4 2 1,
         .relu,
         .conv2d hidden_units hidden_units 3 1 1]
    if num_layers = 0 then
      Except.ok (base ++ [Layer.relu])
    else
      Except.error "TypeError: generator is not a Module subclass"
  else
    Except.error "AssertionError"

/-- Lines 104-105, `Encoder.forward`: the body is `return self.layers` —
it hands back the layer-stack object itself, never applying it to
`inputs`. -/
def Encoder.forward (layers : List Layer) (inputs : Tensor) : List Layer :=
  layers

/-- The `Decoder` module: initial projection convolution, residual
stack, and the transposed-convolution block. -/
structure Decoder where
  de_conv : Layer
  residual_layers : List Layer
  post_block : List Layer
deriving DecidableEq, Repr

/-- Lines 108-139, `Decoder.__init__`.  When `number_post_trans_conv`
is neither `2` nor `1`, the local `post_layers_modules` is never bound
and line 139 raises `UnboundLocalError` — still at construction time. -/
def Decoder.make (in_channels hidden_units num_layers
    residual_hidden_units number_post_trans_conv : Nat) :
    Except String Decoder :=
  let de_conv := Layer.conv2d in_channels hidden_units 3 1 1
  let residual_layers :=
    List.replicate num_layers (Layer.residual hidden_units residual_hidden_units)
  if number_post_trans_conv = 2 then
    Except.ok ⟨de_conv, residual_layers,
      [.convT2d hidden_units (hidden_units / 2) 4 2 1,
       .relu,
       .convT2d (hidden_units / 2) 3 4 2 1]⟩
  else if number_post_trans_conv = 1 then
    Except.ok ⟨de_conv, residual_layers,
      [.convT2d hidden_units 3 4 2 1]⟩
  else
    Except.error "UnboundLocalError: post_layers_modules"

/-- Lines 141-144, `Decoder.forward`, at the level of shapes: apply the
projection convolution, the residual layers, then the post block. -/
def Decoder.shapeForward (d : Decoder) (s : Shape3) : Option Shape3 :=
  runLayers (d.de_conv :: d.residual_layers ++ d.post_block) s

/-- The composed `Model` of lines 147-162. -/
structure Model where
  encoder : List Layer
  before_z : Layer
  vq : VectorQuantize
  decoder : Decoder

/-- Lines 147-155, `Model.__init__`.  Line 152 calls
`Encoder(3, hidden_units, residual_layers, residual_hidden_units)` with
four positional arguments while `Encoder.__init__` requires five
(`number_pre_conv` is missing), and line 155 likewise omits `Decoder`'s
`number_post_trans_conv`; Python raises `TypeError` at the `Encoder`
call before any module is built, so construction always fails. -/
def Model.make (hidden_units residual_layers residual_hidden_units
    num_embeddings embeddings_dim : Nat) (commitment_cost : Rat) :
    Except String Model :=
  Except.error
    "TypeError: __init__() missing 1 required positional argument: number_pre_conv"

/-- The round trip of claim C9 at the level of shapes: build an Encoder
stack downsampling by `2^k` (`number_pre_conv = 2^k`) and a Decoder
upsampling by `2^k` (`number_post_trans_conv = k`), and push an input
shape through both. -/
def roundTripShape (c_in hidden nl ru k : Nat) (s : Shape3) : Option Shape3 :=
  match Encoder.make c_in hidden nl ru (2 ^ k),
        Decoder.make hidden hidden nl ru k with
  | .ok enc, .ok dec => (runLayers enc s).bind dec.shapeForward
  | _, _ => none

/-- The spec's nearest-neighbor scenario: a codebook of 4 entries of
dimension 2 (`[[0,0],[10,10],[5,5],[-5,-5]]`); the commitment cost is
irrelevant to the selection and fixed at `1/4`. -/
def scenarioVQ : VectorQuantize :=
  ⟨4, 2, 1 / 4, [[0, 0], [10, 10], [5, 5], [-5, -5]]⟩

/-- The spec's loss scenario: `commitment_cost = 0.25` and a single
codebook vector `[0, 0]`. -/
def singleVQ : VectorQuantize :=
  ⟨1, 2, 1 / 4, [[0, 0]]⟩

/-! ## Helper lemmas about the list-level operations -/

theorem sqDiff_comm (a b : List Rat) : sqDiff a b = sqDiff b a := by
  unfold sqDiff
  induction a generalizing b with
  | nil => cases b <;> simp
  | cons x xs ih =>
    cases b with
    | nil => simp
    | cons y ys => simp [List.zipWith_cons_cons, ih, neg_sub x y ▸ (neg_sq (x - y)).symm]

theorem mse_comm (a b : List Rat) : mse a b = mse b a := by
  unfold mse
  rw [sqDiff_comm]

theorem sqDiff_nonneg (a b : List Rat) : ∀ x ∈ sqDiff a b, 0 ≤ x := by
  intro x hx
  unfold sqDiff at hx
  obtain ⟨y, _, rfl⟩ := List.mem_map.mp hx
  positivity

theorem mse_nonneg (a b : List Rat) : 0 ≤ mse a b := by
  unfold mse mean
  apply div_nonneg
  · exact List.sum_nonneg (sqDiff_nonneg a b)
  · positivity

/-- The distance expansion of lines 37-39 computes the squared Euclidean
distance exactly, for vectors of equal length. -/
theorem expansion_eq_sqDist (a b : List Rat) (h : a.length = b.length) :
    sqNorm a + sqNorm b - 2 * dot a b = sqDist a b := by
  induction a generalizing b with
  | nil =>
    cases b with
    | nil => simp [sqNorm, dot, sqDist, sqDiff]
    | cons y ys => simp at h
  | cons x xs ih =>
    cases b with
    | nil => simp at h
    | cons y ys =>
      simp only [List.length_cons, Nat.succ_inj] at h
      have := ih ys h
      simp only [sqNorm, dot, sqDist, sqDiff, List.map_cons, List.sum_cons,
        List.zipWith_cons_cons] at this ⊢
      ring_nf
      ring_nf at this
      linarith

/-! ## Properties of `argmin` (first-minimum semantics) -/

theorem argmin_lt_length (l : List Rat) (h : l ≠ []) : argmin l < l.length := by
  induction l with
  | nil => simp at h
  | cons x t ih =>
    cases t with
    | nil => simp [argmin]
    | cons y rest =>
      simp only [argmin]
      split
      · have := ih (by simp)
        simpa using Nat.succ_lt_succ this
      · simp

theorem argmin_le (l : List Rat) : ∀ j < l.length, l.getD (argmin l) 0 ≤ l.getD j 0 := by
  induction l with
  | nil => intro j hj; simp at hj
  | cons x t ih =>
    cases t with
    | nil =>
      intro j hj
      simp only [List.length_cons, List.length_nil] at hj
      have hj0 : j = 0 := by omega
      subst hj0
      simp [argmin]
    | cons y rest =>
      intro j hj
      simp only [argmin]
      split
      · rename_i hlt
        cases j with
        | zero =>
          simpa [List.getD_cons_succ, List.getD_cons_zero] using le_of_lt hlt
        | succ j' =>
          simp only [List.getD_cons_succ]
          exact ih j' (by simpa using hj)
      · rename_i hge
        push_neg at hge
        cases j with
        | zero => simp
        | succ j' =>
          simp only [List.getD_cons_zero, List.getD_cons_succ]
          exact le_trans hge (ih j' (by simpa using hj))

theorem argmin_first (l : List Rat) :
    ∀ j < argmin l, l.getD (argmin l) 0 < l.getD j 0 := by
  induction l with
  | nil => intro j hj; simp [argmin] at hj
  | cons x t ih =>
    cases t with
    | nil => intro j hj; simp [argmin] at hj
    | cons y rest =>
      intro j hj
      simp only [argmin] at hj ⊢
      split
      · rename_i hlt
        cases j with
        | zero =>
          simpa [List.getD_cons_succ, List.getD_cons_zero] using hlt
        | succ j' =>
          simp only [List.getD_cons_succ]
          rw [if_pos hlt] at hj
          exact ih j' (by omega)
      · rename_i hge
        rw [if_neg hge] at hj
        omega

/-! ## The one-hot matrix product selects a codebook row -/

theorem zipWith_replicate_zero_sum (g : List Rat → Rat) (n : Nat)
    (W : List (List Rat)) :
    (List.zipWith (fun c row => c * g row) (List.replicate n (0 : Rat)) W).sum = 0 := by
  induction W generalizing n with
  | nil => simp
  | cons row Ws ih =>
    cases n with
    | zero => simp
    | succ m => simp [List.replicate_succ, List.zipWith_cons_cons, ih]

theorem oneHot_zipWith_sum (g : List Rat → Rat) (i : Nat) :
    ∀ (n : Nat) (W : List (List Rat)), i < n → i < W.length →
      (List.zipWith (fun c row => c * g row) (oneHot n i) W).sum = g (W.getD i []) := by
  induction i with
  | zero =>
    intro n W hn hW
    cases n with
    | zero => omega
    | succ m =>
      cases W with
      | nil => simp at hW
      | cons row Ws =>
        simp [oneHot, List.zipWith_cons_cons, zipWith_replicate_zero_sum g m Ws]
  | succ i' ih =>
    intro n W hn hW
    cases n with
    | zero => omega
    | succ m =>
      cases W with
      | nil => simp at hW
      | cons row Ws =>
        simp only [oneHot, List.zipWith_cons_cons, List.sum_cons, zero_mul, zero_add,
          List.getD_cons_succ]
        exact ih m Ws (by omega) (by simpa using hW)

theorem map_range_getD (r : List Rat) :
    (List.range r.length).map (fun k => r.getD k 0) = r := by
  induction r with
  | nil => simp
  | cons a t ih =>
    rw [List.length_cons, List.range_succ_eq_map, List.map_cons, List.map_map]
    simp only [Function.comp_def, List.getD_cons_succ, List.getD_cons_zero,
      List.getElem?_cons_succ, List.getElem?_cons_zero]
    simpa using ih

theorem vecMat_oneHot (d n i : Nat) (W : List (List Rat))
    (hn : i < n) (hW : i < W.length) (hd : (W.getD i []).length = d) :
    vecMat d (oneHot n i) W = W.getD i [] := by
  unfold vecMat
  have h1 : ∀ k, (List.zipWith (fun c row => c * row.getD k 0) (oneHot n i) W).sum
      = (W.getD i []).getD k 0 := fun k =>
    oneHot_zipWith_sum (fun row => row.getD k 0) i n W hn hW
  calc (List.range d).map (fun k =>
        (List.zipWith (fun c row => c * row.getD k 0) (oneHot n i) W).sum)
      = (List.range d).map (fun k => (W.getD i []).getD k 0) := by
        exact List.map_congr_left (fun k _ => h1 k)
    _ = W.getD i [] := by rw [← hd]; exact map_range_getD _

/-- The product `vecMat` always returns a vector of length `d`. -/
theorem vecMat_length (d : Nat) (v : List Rat) (W : List (List Rat)) :
    (vecMat d v W).length = d := by
  simp [vecMat]

/-! ## Properties of `chunks` (the `view(-1, d)` reshape) -/

theorem chunks_go_flatten (d : Nat) (hd : 0 < d) :
    ∀ (fuel : Nat) (xs : List Rat), xs.length ≤ fuel →
      (chunks.go d fuel xs).flatten = xs := by
  intro fuel
  induction fuel with
  | zero =>
    intro xs h
    have hx : xs = [] := List.eq_nil_of_length_eq_zero (Nat.le_zero.mp h)
    subst hx
    simp [chunks.go]
  | succ f ih =>
    intro xs h
    cases xs with
    | nil => simp [chunks.go]
    | cons x rest =>
      simp only [chunks.go, List.flatten_cons]
      rw [ih ((x :: rest).drop d) (by simp only [List.length_drop]; simp at h ⊢; omega)]
      exact List.take_append_drop d (x :: rest)

theorem chunks_flatten (d : Nat) (hd : 0 < d) (xs : List Rat) :
    (chunks d xs).flatten = xs :=
  chunks_go_flatten d hd xs.length xs le_rfl

theorem chunks_go_length_mem (d : Nat) (hd : 0 < d) :
    ∀ (fuel : Nat) (xs : List Rat), xs.length ≤ fuel → d ∣ xs.length →
      ∀ c ∈ chunks.go d fuel xs, c.length = d := by
  intro fuel
  induction fuel with
  | zero =>
    intro xs h hdvd c hc
    have hx : xs = [] := List.eq_nil_of_length_eq_zero (Nat.le_zero.mp h)
    subst hx
    simp [chunks.go] at hc
  | succ f ih =>
    intro xs h hdvd c hc
    cases xs with
    | nil => simp [chunks.go] at hc
    | cons x rest =>
      have hpos : 0 < (x :: rest).length := by simp
      have hdle : d ≤ (x :: rest).length := Nat.le_of_dvd hpos hdvd
      simp only [chunks.go, List.mem_cons] at hc
      rcases hc with rfl | hc
      · simp only [List.length_take]
        omega
      · exact ih ((x :: rest).drop d)
          (by simp only [List.length_drop]; simp at h ⊢; omega)
          (by simpa [List.length_drop] using Nat.dvd_sub' hdvd dvd_rfl)
          c hc

theorem chunks_length_mem (d : Nat) (hd : 0 < d) (xs : List Rat)
    (hdvd : d ∣ xs.length) : ∀ c ∈ chunks d xs, c.length = d :=
  chunks_go_length_mem d hd xs.length xs le_rfl hdvd

theorem chunks_go_of_rows (d : Nat) (hd : 0 < d) :
    ∀ (L : List (List Rat)) (fuel : Nat), L.flatten.length ≤ fuel →
      (∀ c ∈ L, c.length = d) → chunks.go d fuel L.flatten = L := by
  intro L
  induction L with
  | nil =>
    intro fuel h hc
    cases fuel <;> simp [chunks.go]
  | cons c L' ih =>
    intro fuel h hc
    have hcd : c.length = d := hc c (by simp)
    have hlen : (c :: L').flatten.length = d + L'.flatten.length := by
      simp [List.flatten_cons, hcd]
    cases fuel with
    | zero => omega
    | succ f =>
      cases c with
      | nil => simp at hcd; omega
      | cons z cs =>
        have hgo : chunks.go d (f + 1) ((z :: cs) ++ L'.flatten)
            = ((z :: cs) ++ L'.flatten).take d
              :: chunks.go d f (((z :: cs) ++ L'.flatten).drop d) := rfl
        have htake : ((z :: cs) ++ L'.flatten).take d = z :: cs := by
          rw [← hcd]
          exact List.take_left (z :: cs) L'.flatten
        have hdrop : ((z :: cs) ++ L'.flatten).drop d = L'.flatten := by
          rw [← hcd]
          exact List.drop_left (z :: cs) L'.flatten
        rw [List.flatten_cons, hgo, htake, hdrop,
          ih f (by omega) (fun c hc2 => hc c (by simp [hc2]))]

theorem chunks_of_rows (d : Nat) (hd : 0 < d) (L : List (List Rat))
    (hc : ∀ c ∈ L, c.length = d) : chunks d L.flatten = L :=
  chunks_go_of_rows d hd L L.flatten.length le_rfl hc

/-! ## Characterisation of `VectorQuantize.forward` -/

theorem quantizedFlat_length (vq : VectorQuantize) (xs : List Rat)
    (hd : 0 < vq.embeddings_dim) (hdvd : vq.embeddings_dim ∣ xs.length) :
    (vq.quantizedFlat xs).length = xs.length := by
  conv_rhs => rw [← chunks_flatten vq.embeddings_dim hd xs]
  unfold VectorQuantize.quantizedFlat
  rw [List.length_flatten, List.length_flatten, List.map_map]
  congr 1
  exact List.map_congr_left (fun c hc => by
    simp only [Function.comp_apply, vecMat_length]
    exact (chunks_length_mem vq.embeddings_dim hd xs hdvd c hc).symm)

theorem zipWith_straight_through (a b : List Rat) (h : a.length = b.length) :
    List.zipWith (fun z ei => z + (ei - z)) a b = b := by
  induction a generalizing b with
  | nil =>
    cases b with
    | nil => simp
    | cons y ys => simp at h
  | cons x xs ih =>
    cases b with
    | nil => simp at h
    | cons y ys =>
      simp only [List.length_cons, Nat.succ_inj] at h
      have hxy : x + (y - x) = y := by ring
      rw [List.zipWith_cons_cons, ih ys h, hxy]

/-- The normal form of a successful call to `VectorQuantize.forward`:
the loss is `commitment_cost * e_loss + q_loss` over the quantized
values, and the latent is the quantized data under the input's shape. -/
theorem VectorQuantize.forward_eq (vq : VectorQuantize) (t : Tensor)
    (hd : 0 < vq.embeddings_dim) (hdvd : vq.embeddings_dim ∣ t.data.length)
    (hsh : t.data.length = t.shape.prod) :
    vq.forward t = some
      (vq.commitment_cost * mse (vq.quantizedFlat t.data) t.data
        + mse t.data (vq.quantizedFlat t.data),
       ⟨t.shape, vq.quantizedFlat t.data⟩) := by
  have hlen := quantizedFlat_length vq t.data hd hdvd
  have hst := zipWith_straight_through t.data (vq.quantizedFlat t.data) hlen.symm
  rw [VectorQuantize.forward, if_pos ⟨hd, hdvd⟩]
  simp only [hst, hlen, hsh, eq_self_iff_true, if_true]

theorem distanceRow_length (x : List Rat) (W : List (List Rat)) :
    (distanceRow x W).length = W.length := by
  simp [distanceRow]

theorem getD_mem_of_lt {α : Type} [Inhabited α] (l : List α) (j : Nat) (d : α)
    (hj : j < l.length) : l.getD j d ∈ l := by
  rw [List.getD_eq_getElem l d hj]
  exact List.getElem_mem hj

/-- Entry `j` of the distance row is the true squared Euclidean distance
to codebook row `j`, provided the dimensions agree. -/
theorem distanceRow_getD (x : List Rat) (W : List (List Rat)) (j : Nat)
    (hj : j < W.length) (hlen : ∀ r ∈ W, r.length = x.length) :
    (distanceRow x W).getD j 0 = sqDist x (W.getD j []) := by
  have hj2 : j < (distanceRow x W).length := by rwa [distanceRow_length]
  rw [List.getD_eq_getElem _ _ hj2, List.getD_eq_getElem _ _ hj]
  simp only [distanceRow, List.getElem_map]
  exact expansion_eq_sqDist x W[j] (hlen W[j] (List.getElem_mem hj)).symm

/-- Every row of the quantized output is a row of the codebook. -/
theorem quantizedFlat_chunks_mem (vq : VectorQuantize) (xs : List Rat)
    (hwf : vq.WF) (hn : 0 < vq.num_embeddings) (hd : 0 < vq.embeddings_dim) :
    ∀ c ∈ chunks vq.embeddings_dim (vq.quantizedFlat xs), c ∈ vq.weight := by
  unfold VectorQuantize.quantizedFlat
  rw [chunks_of_rows vq.embeddings_dim hd _
    (fun c hc => by
      obtain ⟨x, _, rfl⟩ := List.mem_map.mp hc
      exact vecMat_length _ _ _)]
  intro c hc
  obtain ⟨x, _, rfl⟩ := List.mem_map.mp hc
  have hWne : vq.weight.length = vq.num_embeddings := hwf.1
  have hlt : argmin (distanceRow x vq.weight) < vq.weight.length := by
    have hne : distanceRow x vq.weight ≠ [] := by
      simp only [distanceRow, ne_eq, List.map_eq_nil_iff]
      intro hW
      rw [hW] at hWne
      simp at hWne
      omega
    have := argmin_lt_length (distanceRow x vq.weight) hne
    rwa [distanceRow_length] at this
  rw [vecMat_oneHot vq.embeddings_dim vq.num_embeddings _ vq.weight
    (hWne ▸ hlt) hlt
    (hwf.2 _ (getD_mem_of_lt vq.weight _ [] hlt))]
  exact getD_mem_of_lt vq.weight _ [] hlt

/-- Position `p` of `selectedIndices` is the argmin of the distance row
of chunk `p`. -/
theorem selectedIndices_getD (vq : VectorQuantize) (xs : List Rat) (p : Nat)
    (hp : p < (chunks vq.embeddings_dim xs).length) :
    (vq.selectedIndices xs).getD p 0
      = argmin (distanceRow ((chunks vq.embeddings_dim xs).getD p []) vq.weight) := by
  have hp2 : p < (vq.selectedIndices xs).length := by
    simpa [VectorQuantize.selectedIndices] using hp
  rw [List.getD_eq_getElem _ _ hp2, List.getD_eq_getElem _ _ hp]
  simp [VectorQuantize.selectedIndices]

/-! ## Claims -/

/-- C1: every flattened embedding-dimension vector is assigned the index
of the codebook vector minimizing the squared Euclidean distance
(computed via the `|a|² + |b|² - 2a·b` expansion, which equals the true
squared distance), ties broken by the first minimal index; and in the
spec's scenario (codebook `[[0,0],[10,10],[5,5],[-5,-5]]`, input
`[1,1]`) the selected index is 0 and the quantized vector is `[0,0]`. -/
theorem C1_nearest_index (vq : VectorQuantize) (xs : List Rat)
    (hwf : vq.WF) (hn : 0 < vq.num_embeddings)
    (hd : 0 < vq.embeddings_dim) (hdvd : vq.embeddings_dim ∣ xs.length) :
    (∀ p, p < (chunks vq.embeddings_dim xs).length →
      (vq.selectedIndices xs).getD p 0 < vq.num_embeddings ∧
      (∀ j < vq.num_embeddings,
        sqDist ((chunks vq.embeddings_dim xs).getD p [])
          (vq.weight.getD ((vq.selectedIndices xs).getD p 0) [])
        ≤ sqDist ((chunks vq.embeddings_dim xs).getD p []) (vq.weight.getD j [])) ∧
      (∀ j < (vq.selectedIndices xs).getD p 0,
        sqDist ((chunks vq.embeddings_dim xs).getD p [])
          (vq.weight.getD ((vq.selectedIndices xs).getD p 0) [])
        < sqDist ((chunks vq.embeddings_dim xs).getD p []) (vq.weight.getD j []))) ∧
    ((scenarioVQ.forward ⟨[2], [1, 1]⟩).map Prod.snd = some ⟨[2], [0, 0]⟩ ∧
      scenarioVQ.selectedIndices [1, 1] = [0]) := by
  constructor
  · intro p hp
    have hx : (chunks vq.embeddings_dim xs).getD p [] ∈ chunks vq.embeddings_dim xs :=
      getD_mem_of_lt _ p [] hp
    have hxlen := chunks_length_mem vq.embeddings_dim hd xs hdvd _ hx
    have hrows : ∀ r ∈ vq.weight,
        r.length = ((chunks vq.embeddings_dim xs).getD p []).length := fun r hr => by
      rw [hwf.2 r hr, hxlen]
    have hWlen : vq.weight.length = vq.num_embeddings := hwf.1
    have hDne : distanceRow ((chunks vq.embeddings_dim xs).getD p []) vq.weight ≠ [] := by
      have : 0 < vq.weight.length := hWlen ▸ hn
      intro habs
      rw [← List.length_eq_zero] at habs
      rw [distanceRow_length] at habs
      omega
    have hsel := selectedIndices_getD vq xs p hp
    have hiD := argmin_lt_length _ hDne
    have hiW : argmin (distanceRow ((chunks vq.embeddings_dim xs).getD p []) vq.weight)
        < vq.weight.length := by rwa [distanceRow_length] at hiD
    refine ⟨by rw [hsel]; omega, ?_, ?_⟩
    · intro j hj
      have hjW : j < vq.weight.length := hWlen ▸ hj
      have hle := argmin_le
        (distanceRow ((chunks vq.embeddings_dim xs).getD p []) vq.weight) j
        (by rwa [distanceRow_length])
      rw [distanceRow_getD _ _ _ hiW hrows, distanceRow_getD _ _ _ hjW hrows] at hle
      rw [hsel]
      exact hle
    · intro j hj
      rw [hsel] at hj
      have hjW : j < vq.weight.length := lt_trans hj hiW
      have hlt := argmin_first
        (distanceRow ((chunks vq.embeddings_dim xs).getD p []) vq.weight) j hj
      rw [distanceRow_getD _ _ _ hiW hrows, distanceRow_getD _ _ _ hjW hrows] at hlt
      rw [hsel]
      exact hlt
  · constructor
    · norm_num [VectorQuantize.forward, VectorQuantize.quantizedFlat, chunks, chunks.go,
        distanceRow, sqNorm, dot, argmin, oneHot, vecMat, List.range_succ, mse, mean, sqDiff,
        List.replicate_succ, List.zipWith_cons_cons, List.sum_cons, scenarioVQ]
    · norm_num [VectorQuantize.selectedIndices, chunks, chunks.go, distanceRow, sqNorm, dot,
        argmin, List.zipWith_cons_cons, scenarioVQ]

/-- Witness for C1: concrete instantiation at the spec's scenario. -/
theorem C1_nearest_index_witness :
    (scenarioVQ.WF ∧ 0 < scenarioVQ.num_embeddings ∧ 0 < scenarioVQ.embeddings_dim ∧
      scenarioVQ.embeddings_dim ∣ ([1, 1] : List Rat).length) ∧
    ((scenarioVQ.forward ⟨[2], [1, 1]⟩).map Prod.snd = some ⟨[2], [0, 0]⟩ ∧
      scenarioVQ.selectedIndices [1, 1] = [0]) :=
  ⟨⟨by decide, by decide, by decide, by decide⟩,
    (C1_nearest_index scenarioVQ [1, 1] (by decide) (by decide) (by decide) (by decide)).2⟩

/-- Concrete evaluation of `forward` on the spec's 4-entry scenario. -/
theorem scenarioVQ_forward_eval :
    scenarioVQ.forward ⟨[2], [1, 1]⟩ = some (5 / 4, ⟨[2], [0, 0]⟩) := by
  norm_num [VectorQuantize.forward, VectorQuantize.quantizedFlat, chunks, chunks.go,
    distanceRow, sqNorm, dot, argmin, oneHot, vecMat, List.range_succ, mse, mean, sqDiff,
    List.replicate_succ, List.zipWith_cons_cons, List.sum_cons, scenarioVQ]

/-- C2: the straight-through latent returned by `forward` is value-wise
exactly the quantized data, and every embedding-dimension row of it is a
codebook row. -/
theorem C2_latent_is_quantized (vq : VectorQuantize) (t : Tensor)
    (loss : Rat) (latent : Tensor)
    (hwf : vq.WF) (hn : 0 < vq.num_embeddings)
    (hd : 0 < vq.embeddings_dim) (hdvd : vq.embeddings_dim ∣ t.data.length)
    (hsh : t.data.length = t.shape.prod)
    (hfw : vq.forward t = some (loss, latent)) :
    latent.data = vq.quantizedFlat t.data ∧
    ∀ c ∈ chunks vq.embeddings_dim latent.data, c ∈ vq.weight := by
  have heq := VectorQuantize.forward_eq vq t hd hdvd hsh
  rw [hfw] at heq
  injection heq with h
  have hlat : latent = ⟨t.shape, vq.quantizedFlat t.data⟩ := congrArg Prod.snd h
  refine ⟨by rw [hlat], ?_⟩
  rw [hlat]
  exact quantizedFlat_chunks_mem vq t.data hwf hn hd

/-- Witness for C2: the 4-entry scenario, where the latent `[0,0]` is
codebook row 0. -/
theorem C2_latent_is_quantized_witness :
    (scenarioVQ.WF ∧ 0 < scenarioVQ.num_embeddings ∧ 0 < scenarioVQ.embeddings_dim ∧
      scenarioVQ.embeddings_dim ∣ (Tensor.mk [2] [1, 1]).data.length ∧
      (Tensor.mk [2] [1, 1]).data.length = (Tensor.mk [2] [1, 1]).shape.prod ∧
      scenarioVQ.forward ⟨[2], [1, 1]⟩ = some (5 / 4, ⟨[2], [0, 0]⟩)) ∧
    ((Tensor.mk [2] [0, 0]).data = scenarioVQ.quantizedFlat (Tensor.mk [2] [1, 1]).data ∧
      ∀ c ∈ chunks scenarioVQ.embeddings_dim (Tensor.mk [2] [0, 0]).data,
        c ∈ scenarioVQ.weight) :=
  ⟨⟨by decide, by decide, by decide, by decide, by decide, scenarioVQ_forward_eval⟩,
    C2_latent_is_quantized scenarioVQ ⟨[2], [1, 1]⟩ (5 / 4) ⟨[2], [0, 0]⟩
      (by decide) (by decide) (by decide) (by decide) (by decide) scenarioVQ_forward_eval⟩

/-- C3: the returned loss is `commitment_cost * e_loss + q_loss`, with
`e_loss` the MSE between the selected codebook vectors and the input
and `q_loss` the MSE between the input and the selected codebook
vectors; value-wise the two are equal. -/
theorem C3_loss_formula (vq : VectorQuantize) (t : Tensor)
    (loss : Rat) (latent : Tensor)
    (hd : 0 < vq.embeddings_dim) (hdvd : vq.embeddings_dim ∣ t.data.length)
    (hsh : t.data.length = t.shape.prod)
    (hfw : vq.forward t = some (loss, latent)) :
    loss = vq.commitment_cost * mse (vq.quantizedFlat t.data) t.data
      + mse t.data (vq.quantizedFlat t.data) ∧
    mse (vq.quantizedFlat t.data) t.data = mse t.data (vq.quantizedFlat t.data) := by
  have heq := VectorQuantize.forward_eq vq t hd hdvd hsh
  rw [hfw] at heq
  injection heq with h
  exact ⟨congrArg Prod.fst h, mse_comm _ _⟩

/-- Witness for C3: the 4-entry scenario, where the loss is `5/4`. -/
theorem C3_loss_formula_witness :
    (0 < scenarioVQ.embeddings_dim ∧
      scenarioVQ.embeddings_dim ∣ (Tensor.mk [2] [1, 1]).data.length ∧
      (Tensor.mk [2] [1, 1]).data.length = (Tensor.mk [2] [1, 1]).shape.prod ∧
      scenarioVQ.forward ⟨[2], [1, 1]⟩ = some (5 / 4, ⟨[2], [0, 0]⟩)) ∧
    ((5 / 4 : Rat) = scenarioVQ.commitment_cost
        * mse (scenarioVQ.quantizedFlat (Tensor.mk [2] [1, 1]).data)
            (Tensor.mk [2] [1, 1]).data
      + mse (Tensor.mk [2] [1, 1]).data
          (scenarioVQ.quantizedFlat (Tensor.mk [2] [1, 1]).data)) :=
  ⟨⟨by decide, by decide, by decide, scenarioVQ_forward_eval⟩,
    (C3_loss_formula scenarioVQ ⟨[2], [1, 1]⟩ (5 / 4) ⟨[2], [0, 0]⟩
      (by decide) (by decide) (by decide) scenarioVQ_forward_eval).1⟩

/-- C4: whenever the element count is a multiple of `embeddings_dim`
(and the tensor is well formed), `forward` succeeds and the latent has
exactly the input's shape. -/
theorem C4_shape_preserved (vq : VectorQuantize) (t : Tensor)
    (hd : 0 < vq.embeddings_dim) (hdvd : vq.embeddings_dim ∣ t.data.length)
    (hsh : t.data.length = t.shape.prod) :
    ∃ loss latent, vq.forward t = some (loss, latent) ∧
      latent.shape = t.shape ∧ latent.data.length = t.data.length :=
  ⟨_, _, VectorQuantize.forward_eq vq t hd hdvd hsh, rfl,
    quantizedFlat_length vq t.data hd hdvd⟩

/-- Witness for C4: the 4-entry scenario input of shape `[2]`. -/
theorem C4_shape_preserved_witness :
    (0 < scenarioVQ.embeddings_dim ∧
      scenarioVQ.embeddings_dim ∣ (Tensor.mk [2] [1, 1]).data.length ∧
      (Tensor.mk [2] [1, 1]).data.length = (Tensor.mk [2] [1, 1]).shape.prod) ∧
    (∃ loss latent, scenarioVQ.forward ⟨[2], [1, 1]⟩ = some (loss, latent) ∧
      latent.shape = (Tensor.mk [2] [1, 1]).shape ∧
      latent.data.length = (Tensor.mk [2] [1, 1]).data.length) :=
  ⟨⟨by decide, by decide, by decide⟩,
    C4_shape_preserved scenarioVQ ⟨[2], [1, 1]⟩ (by decide) (by decide) (by decide)⟩

/-- C5 (code bug): `Encoder.forward` returns the layer-stack object
itself — its result is the stack, identical for any two inputs, so it is
NOT the result of applying the stack to the input.  The claim (and the
spec's stated intent) is that it should be a deterministic
transformation *of the input*. -/
theorem C5_encoder_forward_ignores_input (layers : List Layer) (x y : Tensor) :
    Encoder.forward layers x = layers ∧
    Encoder.forward layers x = Encoder.forward layers y :=
  ⟨rfl, rfl⟩

/-- C6 (code bug): `Model.__init__` invokes `Encoder` (and `Decoder`)
without the required stage-count argument, so constructing a `Model`
from its six configuration arguments always raises `TypeError` — the
claimed Encoder → projection → VectorQuantize → Decoder composition is
never reached. -/
theorem C6_model_construction_raises (hu rl rhu ne ed : Nat) (cc : Rat) :
    Model.make hu rl rhu ne ed cc = Except.error
      "TypeError: __init__() missing 1 required positional argument: number_pre_conv" :=
  rfl

/-- C7: for any stage count other than the two supported values
(`number_pre_conv ∉ {2,4}`, `number_post_trans_conv ∉ {1,2}`),
construction of the Encoder (its `assert`) or the Decoder (the unbound
`post_layers_modules` local) fails with an error at construction time,
before any forward computation. -/
theorem C7_bad_stage_count_fails (ic hu nl rhu npc npt : Nat)
    (hpc2 : npc ≠ 2) (hpc4 : npc ≠ 4) (hpt1 : npt ≠ 1) (hpt2 : npt ≠ 2) :
    Encoder.make ic hu nl rhu npc = Except.error "AssertionError" ∧
    Decoder.make ic hu nl rhu npt
      = Except.error "UnboundLocalError: post_layers_modules" := by
  constructor
  · simp [Encoder.make, hpc2, hpc4]
  · simp [Decoder.make, hpt1, hpt2]

/-- Witness for C7: stage counts 3 (encoder) and 0 (decoder). -/
theorem C7_bad_stage_count_fails_witness :
    ((3 : Nat) ≠ 2 ∧ (3 : Nat) ≠ 4 ∧ (0 : Nat) ≠ 1 ∧ (0 : Nat) ≠ 2) ∧
    (Encoder.make 3 4 0 2 3 = Except.error "AssertionError" ∧
      Decoder.make 3 4 0 2 0
        = Except.error "UnboundLocalError: post_layers_modules") :=
  ⟨⟨by decide, by decide, by decide, by decide⟩,
    C7_bad_stage_count_fails 3 4 0 2 3 0 (by decide) (by decide) (by decide) (by decide)⟩

/-- Concrete evaluation of `forward` on the spec's single-entry loss
scenario: `e_loss = q_loss = 1`, combined loss `= 0.25·1 + 1 = 5/4`. -/
theorem singleVQ_forward_eval :
    singleVQ.forward ⟨[2], [1, 1]⟩ = some (5 / 4, ⟨[2], [0, 0]⟩) := by
  norm_num [VectorQuantize.forward, VectorQuantize.quantizedFlat, chunks, chunks.go,
    distanceRow, sqNorm, dot, argmin, oneHot, vecMat, List.range_succ, mse, mean, sqDiff,
    List.replicate_succ, List.zipWith_cons_cons, List.sum_cons, singleVQ]

/-- C8: with `commitment_cost ≥ 0` the combined loss is non-negative,
being a weighted sum of two mean-squared errors; and in the spec's
scenario (`commitment_cost = 1/4`, codebook `[[0,0]]`, input `[1,1]`)
`e_loss = q_loss = 1` and the combined loss is `5/4 = 1.25`. -/
theorem C8_loss_nonneg (vq : VectorQuantize) (t : Tensor)
    (loss : Rat) (latent : Tensor)
    (hcc : 0 ≤ vq.commitment_cost)
    (hd : 0 < vq.embeddings_dim) (hdvd : vq.embeddings_dim ∣ t.data.length)
    (hsh : t.data.length = t.shape.prod)
    (hfw : vq.forward t = some (loss, latent)) :
    0 ≤ loss ∧
    (mse (singleVQ.quantizedFlat [1, 1]) [1, 1] = 1 ∧
      mse [1, 1] (singleVQ.quantizedFlat [1, 1]) = 1 ∧
      singleVQ.forward ⟨[2], [1, 1]⟩ = some (5 / 4, ⟨[2], [0, 0]⟩)) := by
  refine ⟨?_, ?_, ?_, singleVQ_forward_eval⟩
  · have heq := VectorQuantize.forward_eq vq t hd hdvd hsh
    rw [hfw] at heq
    injection heq with h
    have hl : loss = vq.commitment_cost * mse (vq.quantizedFlat t.data) t.data
        + mse t.data (vq.quantizedFlat t.data) := congrArg Prod.fst h
    rw [hl]
    exact add_nonneg (mul_nonneg hcc (mse_nonneg _ _)) (mse_nonneg _ _)
  · norm_num [VectorQuantize.quantizedFlat, chunks, chunks.go, distanceRow, sqNorm, dot,
      argmin, oneHot, vecMat, List.range_succ, mse, mean, sqDiff, List.replicate_succ,
      List.zipWith_cons_cons, List.sum_cons, singleVQ]
  · norm_num [VectorQuantize.quantizedFlat, chunks, chunks.go, distanceRow, sqNorm, dot,
      argmin, oneHot, vecMat, List.range_succ, mse, mean, sqDiff, List.replicate_succ,
      List.zipWith_cons_cons, List.sum_cons, singleVQ]

/-- Witness for C8: the single-entry scenario itself. -/
theorem C8_loss_nonneg_witness :
    (0 ≤ singleVQ.commitment_cost ∧ 0 < singleVQ.embeddings_dim ∧
      singleVQ.embeddings_dim ∣ (Tensor.mk [2] [1, 1]).data.length ∧
      (Tensor.mk [2] [1, 1]).data.length = (Tensor.mk [2] [1, 1]).shape.prod ∧
      singleVQ.forward ⟨[2], [1, 1]⟩ = some (5 / 4, ⟨[2], [0, 0]⟩)) ∧
    (0 ≤ (5 / 4 : Rat)) :=
  ⟨⟨by norm_num [singleVQ], by decide, by decide, by decide, singleVQ_forward_eval⟩,
    (C8_loss_nonneg singleVQ ⟨[2], [1, 1]⟩ (5 / 4) ⟨[2], [0, 0]⟩
      (by norm_num [singleVQ]) (by decide) (by decide) (by decide)
      singleVQ_forward_eval).1⟩

/-- C10: a forward pass leaves the codebook and the whole module state
unchanged — the post-call state equals the pre-call state. -/
theorem C10_forward_state_unchanged (vq : VectorQuantize) (t : Tensor)
    (out : (Rat × Tensor) × VectorQuantize)
    (h : vq.forwardState t = some out) :
    out.2 = vq ∧ out.2.weight = vq.weight := by
  unfold VectorQuantize.forwardState at h
  obtain ⟨r, _, rfl⟩ := Option.map_eq_some'.mp h
  exact ⟨rfl, rfl⟩

/-- Witness for C10: the 4-entry scenario call. -/
theorem C10_forward_state_unchanged_witness :
    (scenarioVQ.forwardState ⟨[2], [1, 1]⟩
      = some ((5 / 4, ⟨[2], [0, 0]⟩), scenarioVQ)) ∧
    (((5 / 4, (⟨[2], [0, 0]⟩ : Tensor)), scenarioVQ).2 = scenarioVQ ∧
      ((5 / 4, (⟨[2], [0, 0]⟩ : Tensor)), scenarioVQ).2.weight = scenarioVQ.weight) :=
  have hfs : scenarioVQ.forwardState ⟨[2], [1, 1]⟩
      = some ((5 / 4, ⟨[2], [0, 0]⟩), scenarioVQ) := by
    rw [VectorQuantize.forwardState, scenarioVQ_forward_eval]
    rfl
  ⟨hfs, C10_forward_state_unchanged scenarioVQ ⟨[2], [1, 1]⟩ _ hfs⟩

/-! ## Shape lemmas for the convolutional stacks (claim C9) -/

theorem foldl_bind_none (ls : List Layer) :
    ls.foldl (fun acc l => acc.bind l.apply) none = none := by
  induction ls with
  | nil => rfl
  | cons l ls ih => simpa using ih

theorem runLayers_cons (l : Layer) (ls : List Layer) (s : Shape3) :
    runLayers (l :: ls) s = (l.apply s).bind (fun s2 => runLayers ls s2) := by
  unfold runLayers
  cases h : l.apply s with
  | none => simp [h, foldl_bind_none ls]
  | some s2 => simp [h, runLayers]

theorem runLayers_nil (s : Shape3) : runLayers [] s = some s := rfl

theorem runLayers_append (l1 l2 : List Layer) (s : Shape3) :
    runLayers (l1 ++ l2) s = (runLayers l1 s).bind (fun s2 => runLayers l2 s2) := by
  induction l1 generalizing s with
  | nil => simp [runLayers_nil]
  | cons l ls ih =>
    rw [List.cons_append, runLayers_cons, runLayers_cons]
    cases h : l.apply s with
    | none => simp
    | some s2 => simp [ih s2]

/-- A stack of residual blocks is shape-preserving on matching
channels. -/
theorem runLayers_residual_replicate (n c u h w : Nat) :
    runLayers (List.replicate n (Layer.residual c u)) ⟨c, h, w⟩ = some ⟨c, h, w⟩ := by
  induction n with
  | zero => rfl
  | succ m ih => rw [List.replicate_succ, runLayers_cons]; simpa [Layer.apply] using ih

/-- The two-stage (`number_pre_conv = 2`) encoder stack halves each
spatial dimension. -/
theorem encoder2_shape (hidden m m2 : Nat) (hm : 0 < m) (hm2 : 0 < m2) :
    runLayers [Layer.conv2d (hidden / 2) hidden 4 2 1, Layer.relu,
      Layer.conv2d hidden hidden 3 1 1, Layer.relu]
      ⟨hidden / 2, 2 * m, 2 * m2⟩ = some ⟨hidden, m, m2⟩ := by
  have h1 : convOut 4 2 1 (2 * m) = m := by unfold convOut; omega
  have h2 : convOut 4 2 1 (2 * m2) = m2 := by unfold convOut; omega
  have h3 : convOut 3 1 1 m = m := by unfold convOut; omega
  have h4 : convOut 3 1 1 m2 = m2 := by unfold convOut; omega
  simp [runLayers_cons, runLayers_nil, Layer.apply, h1, h2, h3, h4]

/-- The four-stage (`number_pre_conv = 4`) encoder stack quarters each
spatial dimension. -/
theorem encoder4_shape (cin hidden m m2 : Nat) (hm : 0 < m) (hm2 : 0 < m2) :
    runLayers [Layer.conv2d cin (hidden / 2) 4 2 1, Layer.relu,
      Layer.conv2d (hidden / 2) hidden 4 2 1, Layer.relu,
      Layer.conv2d hidden hidden 3 1 1, Layer.relu]
      ⟨cin, 4 * m, 4 * m2⟩ = some ⟨hidden, m, m2⟩ := by
  have h1 : convOut 4 2 1 (4 * m) = 2 * m := by unfold convOut; omega
  have h2 : convOut 4 2 1 (4 * m2) = 2 * m2 := by unfold convOut; omega
  have h3 : convOut 4 2 1 (2 * m) = m := by unfold convOut; omega
  have h4 : convOut 4 2 1 (2 * m2) = m2 := by unfold convOut; omega
  have h5 : convOut 3 1 1 m = m := by unfold convOut; omega
  have h6 : convOut 3 1 1 m2 = m2 := by unfold convOut; omega
  simp [runLayers_cons, runLayers_nil, Layer.apply, h1, h2, h3, h4, h5, h6]

/-- The one-stage decoder doubles each spatial dimension and ends in 3
channels. -/
theorem decoder1_shape (hidden nld ru m m2 : Nat) (hm : 0 < m) (hm2 : 0 < m2) :
    Decoder.shapeForward
      ⟨Layer.conv2d hidden hidden 3 1 1,
        List.replicate nld (Layer.residual hidden ru),
        [Layer.convT2d hidden 3 4 2 1]⟩
      ⟨hidden, m, m2⟩ = some ⟨3, 2 * m, 2 * m2⟩ := by
  have h3 : convOut 3 1 1 m = m := by unfold convOut; omega
  have h4 : convOut 3 1 1 m2 = m2 := by unfold convOut; omega
  have h5 : convTOut 4 2 1 m = 2 * m := by unfold convTOut; omega
  have h6 : convTOut 4 2 1 m2 = 2 * m2 := by unfold convTOut; omega
  unfold Decoder.shapeForward
  dsimp only
  rw [runLayers_append, runLayers_cons]
  simp only [Layer.apply, eq_self_iff_true, if_true, h3, h4, Option.some_bind]
  rw [runLayers_residual_replicate]
  simp [runLayers_cons, runLayers_nil, Layer.apply, h5, h6]

/-- The two-stage decoder quadruples each spatial dimension and ends in
3 channels. -/
theorem decoder2_shape (hidden nld ru m m2 : Nat) (hm : 0 < m) (hm2 : 0 < m2) :
    Decoder.shapeForward
      ⟨Layer.conv2d hidden hidden 3 1 1,
        List.replicate nld (Layer.residual hidden ru),
        [Layer.convT2d hidden (hidden / 2) 4 2 1, Layer.relu,
         Layer.convT2d (hidden / 2) 3 4 2 1]⟩
      ⟨hidden, m, m2⟩ = some ⟨3, 4 * m, 4 * m2⟩ := by
  have h3 : convOut 3 1 1 m = m := by unfold convOut; omega
  have h4 : convOut 3 1 1 m2 = m2 := by unfold convOut; omega
  have h5 : convTOut 4 2 1 m = 2 * m := by unfold convTOut; omega
  have h6 : convTOut 4 2 1 m2 = 2 * m2 := by unfold convTOut; omega
  have h7 : convTOut 4 2 1 (2 * m) = 4 * m := by unfold convTOut; omega
  have h8 : convTOut 4 2 1 (2 * m2) = 4 * m2 := by unfold convTOut; omega
  unfold Decoder.shapeForward
  dsimp only
  rw [runLayers_append, runLayers_cons]
  simp only [Layer.apply, eq_self_iff_true, if_true, h3, h4, Option.some_bind]
  rw [runLayers_residual_replicate]
  simp [runLayers_cons, runLayers_nil, Layer.apply, h5, h6, h7, h8]

/-- Counterexample to C9 as stated: with downsampling factor `2^1` and a
3×3 input (constructible stacks, matching channels), the round trip
returns spatial size 2×2, not 3×3 — the strided convolution floors odd
sizes, so the law fails for inputs not divisible by `2^k`. -/
theorem C9_roundtrip_counterexample :
    roundTripShape 2 4 0 2 1 ⟨2, 3, 3⟩ = some ⟨3, 2, 2⟩ ∧
    (Shape3.mk 3 2 2).h ≠ (Shape3.mk 2 3 3).h ∧
    (Shape3.mk 3 2 2).w ≠ (Shape3.mk 2 3 3).w :=
  ⟨by decide, by decide, by decide⟩

/-- C9 (amended): for a constructible Encoder downsampling by `2^k`
composed with a Decoder upsampling by `2^k` (`k ∈ {1,2}`), and an input
whose positive height and width are each divisible by `2^k` (with the
channel count the first encoder convolution expects), the round trip
preserves the spatial resolution exactly and ends in 3 channels. -/
theorem C9_roundtrip_amended (k c_in hidden nl nld ru H W : Nat)
    (enc : List Layer) (dec : Decoder)
    (hk : k = 1 ∨ k = 2)
    (he : Encoder.make c_in hidden nl ru (2 ^ k) = Except.ok enc)
    (hdec : Decoder.make hidden hidden nld ru k = Except.ok dec)
    (hH : 0 < H) (hW : 0 < W) (hdH : 2 ^ k ∣ H) (hdW : 2 ^ k ∣ W) :
    (runLayers enc ⟨if k = 1 then hidden / 2 else c_in, H, W⟩).bind
      dec.shapeForward = some ⟨3, H, W⟩ := by
  rcases hk with rfl | rfl
  · rw [pow_one] at he hdH hdW
    have hnl : nl = 0 := by
      by_contra hnl
      simp [Encoder.make, hnl] at he
    subst hnl
    simp only [Encoder.make] at he
    norm_num at he
    have hdec2 : dec = ⟨Layer.conv2d hidden hidden 3 1 1,
        List.replicate nld (Layer.residual hidden ru),
        [Layer.convT2d hidden 3 4 2 1]⟩ := by
      simp [Decoder.make] at hdec
      exact hdec.symm
    subst hdec2
    obtain ⟨m, rfl⟩ := hdH
    obtain ⟨m2, rfl⟩ := hdW
    have hm : 0 < m := by omega
    have hm2 : 0 < m2 := by omega
    rw [if_pos (rfl : (1 : Nat) = 1), ← he,
      encoder2_shape hidden m m2 hm hm2, Option.some_bind]
    exact decoder1_shape hidden nld ru m m2 hm hm2
  · have hpow : (2 : Nat) ^ 2 = 4 := by norm_num
    rw [hpow] at he hdH hdW
    have hnl : nl = 0 := by
      by_contra hnl
      simp [Encoder.make, hnl] at he
    subst hnl
    simp only [Encoder.make] at he
    norm_num at he
    have hdec2 : dec = ⟨Layer.conv2d hidden hidden 3 1 1,
        List.replicate nld (Layer.residual hidden ru),
        [Layer.convT2d hidden (hidden / 2) 4 2 1, Layer.relu,
         Layer.convT2d (hidden / 2) 3 4 2 1]⟩ := by
      simp [Decoder.make] at hdec
      exact hdec.symm
    subst hdec2
    obtain ⟨m, rfl⟩ := hdH
    obtain ⟨m2, rfl⟩ := hdW
    have hm : 0 < m := by omega
    have hm2 : 0 < m2 := by omega
    rw [if_neg (by norm_num : ¬(2 : Nat) = 1), ← he,
      encoder4_shape c_in hidden m m2 hm hm2, Option.some_bind]
    exact decoder2_shape hidden nld ru m m2 hm hm2

/-- Witness for the amended C9: `k = 1`, `hidden = 4`, a 4×4 input. -/
theorem C9_roundtrip_amended_witness :
    ((1 : Nat) = 1 ∨ (1 : Nat) = 2) ∧
    Encoder.make 3 4 0 2 (2 ^ 1)
      = Except.ok [Layer.conv2d 2 4 4 2 1, Layer.relu,
          Layer.conv2d 4 4 3 1 1, Layer.relu] ∧
    Decoder.make 4 4 0 2 1
      = Except.ok ⟨Layer.conv2d 4 4 3 1 1, [], [Layer.convT2d 4 3 4 2 1]⟩ ∧
    (0 : Nat) < 4 ∧ (2 : Nat) ^ 1 ∣ 4 ∧
    (runLayers [Layer.conv2d 2 4 4 2 1, Layer.relu,
        Layer.conv2d 4 4 3 1 1, Layer.relu] ⟨if 1 = 1 then 4 / 2 else 3, 4, 4⟩).bind
      (Decoder.shapeForward ⟨Layer.conv2d 4 4 3 1 1, [], [Layer.convT2d 4 3 4 2 1]⟩)
      = some ⟨3, 4, 4⟩ :=
  ⟨Or.inl rfl, by rfl, by rfl, by decide, by decide,
    C9_roundtrip_amended 1 3 4 0 0 2 4 4
      [Layer.conv2d 2 4 4 2 1, Layer.relu, Layer.conv2d 4 4 3 1 1, Layer.relu]
      ⟨Layer.conv2d 4 4 3 1 1, [], [Layer.convT2d 4 3 4 2 1]⟩
      (Or.inl rfl) (by rfl) (by rfl) (by decide) (by decide)
      (by decide) (by decide)⟩
